import Mathlib

set_option maxHeartbeats 1000000

/-
Shallow embedding of the HPCC_FPGA distributed-LU benchmark harness.

Numeric data (HOST_DATA_TYPE) is modelled over ℚ so that the algebraic
content of the floating-point code can be settled exactly; matrices are
total functions ℕ → ℕ → ℚ in row-major orientation (first index = row),
matching the `a[row * lda + col]` access pattern of the host code.
-/

/-- Generic in-place array-write loop: fold a list of (index, value) writes
over an initial array. Used to embed C loops that assign each cell once. -/
def storeAll (g : ℕ → ℚ) (ws : List (ℕ × ℚ)) : ℕ → ℚ :=
  ws.foldl (fun f p => Function.update f p.1 p.2) g

namespace channel

/-- Embedding of the test-only mirrored external-channel file
(src/unnamed/part_000). A fixed-width floating-point value is modelled by
its byte representation: a list of w bytes (naturals below 256; the
byte-level bound is irrelevant to the round-trip property, so bytes are
plain naturals). Writing a sequence of values appends their byte blocks in
order to the binary stream. -/
def writeExternalChannel (vals : List (List ℕ)) : List ℕ :=
  vals.flatten

/-- Embedding of LinpackKernelCommunicationTest::getDataFromExternalChannel
(src/unnamed/part_000 lines 51-62): repeatedly read sizeof(HOST_DATA_TYPE)
= w bytes from the stream into a value while a full value remains, and
collect the values read in order. -/
def getDataFromExternalChannel (w : ℕ) (file : List ℕ) : List (List ℕ) :=
  if h : 0 < w ∧ w ≤ file.length then
    file.take w :: getDataFromExternalChannel w (file.drop w)
  else []
termination_by file.length
decreasing_by
  simp only [List.length_drop]
  omega

end channel

namespace bm_execution

/-- Embedding of bm_execution::ExecutionTimings as used by the LINPACK
calculate (src/unnamed/part_001 lines 109-111): it records one
calculation-time entry per repetition. Neither the record constructed in
part_001 nor the header declaration in part_002 (lines 44-48: looplength,
messageSize, calculationTimings) contains a transfer-time field. -/
structure ExecutionTimings where
  calculationTimings : List ℚ

/-- The sequence of transfer-time entries contained in an ExecutionTimings
record. The record has no transfer-time field (src/unnamed/part_002 lines
44-48), so this sequence is empty for every record. -/
def transferTimings (_t : ExecutionTimings) : List ℚ := []

/-- Host-side arrays of bm_execution::calculate (src/unnamed/part_001
lines 50-53): the matrix A, the right-hand side b and the pivot array. -/
structure HostState where
  A : ℕ → ℚ
  b : ℕ → ℚ
  ipvt : ℕ → ℤ

/-- Device-side buffers Buffer_a and Buffer_pivot (src/unnamed/part_001
lines 61-64). -/
structure DeviceState where
  buffer_a : ℕ → ℚ
  buffer_pivot : ℕ → ℤ

/-- Abstract model of the device gefa kernel: from the content of Buffer_a
it produces the new content of Buffer_a and of Buffer_pivot. The kernel
body is out of scope for the harness claims; it is kept abstract. -/
structure GefaKernel where
  run : (ℕ → ℚ) → (ℕ → ℚ) × (ℕ → ℤ)

/-- Combined state of host and device during calculate. -/
structure CalcState where
  host : HostState
  dev : DeviceState

/-- One iteration of the repetition loop of bm_execution::calculate
(src/unnamed/part_001 lines 84-96): enqueueWriteBuffer copies the host
matrix A into Buffer_a, then the gefa kernel task runs on the device.
Returns the new state together with the content of Buffer_a at the moment
the kernel starts. -/
def calculateIteration (gefa : GefaKernel) (s : CalcState) : CalcState × (ℕ → ℚ) :=
  let written : DeviceState := { s.dev with buffer_a := s.host.A }
  let result := gefa.run written.buffer_a
  ({ s with dev := { buffer_a := result.1, buffer_pivot := result.2 } }, written.buffer_a)

/-- The repetition loop of bm_execution::calculate (src/unnamed/part_001
lines 84-96), iteration index i counting up. The wall clock is modelled as
a sequence of readings `clock`; iteration i reads the clock at positions
2*i (t1, before the kernel task) and 2*i+1 (t2, after finish) and pushes
the duration t2 - t1 onto executionTimes. The loop also logs the content
of Buffer_a at each kernel start. -/
def calculateLoop (gefa : GefaKernel) (clock : ℕ → ℚ) :
    ℕ → ℕ → CalcState → CalcState × List ℚ × List (ℕ → ℚ)
  | _, 0, s => (s, [], [])
  | i, r + 1, s =>
    let step := calculateIteration gefa s
    let timing := clock (2 * i + 1) - clock (2 * i)
    let rest := calculateLoop gefa clock (i + 1) r step.1
    (rest.1, timing :: rest.2.1, step.2 :: rest.2.2)

/-- Embedding of bm_execution::calculate (src/unnamed/part_001 lines
49-112): run the repetition loop, read Buffer_a and Buffer_pivot back into
the host arrays A and ipvt once, then solve the linear equations on the
CPU by one call to gesl_ref (kept abstract: it maps (A, b, ipvt) to the
new content of b). Returns the ExecutionTimings, the final host state and
the per-repetition log of Buffer_a contents at kernel start. -/
def calculate (repetitions : ℕ) (clock : ℕ → ℚ) (gefa : GefaKernel)
    (gesl_ref : (ℕ → ℚ) → (ℕ → ℚ) → (ℕ → ℤ) → (ℕ → ℚ)) (s0 : CalcState) :
    ExecutionTimings × HostState × List (ℕ → ℚ) :=
  let loopOut := calculateLoop gefa clock 0 repetitions s0
  let aRead := loopOut.1.dev.buffer_a
  let ipvtRead := loopOut.1.dev.buffer_pivot
  let bSolved := gesl_ref aRead loopOut.1.host.b ipvtRead
  (⟨loopOut.2.1⟩, { A := aRead, b := bSolved, ipvt := ipvtRead }, loopOut.2.2)

end bm_execution

namespace transpose

/-- Embedding of the PTRANS execution-timings record as used by
printResults (src/PTRANS/src/host/transpose_functionality.cpp lines
79-108): per-repetition transfer times and calculation times. -/
structure TransposeExecutionTimings where
  transferTimings : List ℚ
  calculationTimings : List ℚ
deriving DecidableEq

/-- The data-handler identifiers dispatched on by the CPU calculate
(src/PTRANS/tests/test_kernel_functionality_and_host_integration.cpp lines
289-307): diagonal and pq are supported, any other handler reaches the
default branch. -/
inductive DataHandlerType where
  | diagonal
  | pq
  | unsupported
deriving DecidableEq

/-- The two runtime errors thrown by transpose::fpga_execution::cpu::calculate:
the block-size check before the loop (line 270-272) and the default branch
of the data-handler switch (line 306). -/
inductive CalcError where
  | blockSizeMismatch
  | unsupportedHandler
deriving DecidableEq

/-- Wall-clock cost model for one repetition of the CPU calculate: the
duration of the first handler.exchangeData call, of the mkl computation
pass, and of the closing handler.exchangeData call. -/
structure RepCost where
  exchangeTime : ℚ
  calculationTime : ℚ
  exchangeBackTime : ℚ
deriving DecidableEq

/-- Observable operations of one node running the CPU calculate, tagged
with their repetition index: the MPI barrier, the block exchanges over the
network (phase 0 before the computation, phase 1 after it), and the local
computation pass. -/
inductive Event where
  | barrier (rep : ℕ)
  | exchange (rep : ℕ) (phase : ℕ)
  | compute (rep : ℕ)
deriving DecidableEq

/-- Abstract data operations of the CPU calculate: the payload type of the
matrix data together with handler.exchangeData and the two mkl_somatadd
computation passes. Their bodies are out of scope; the claims are about
when they are invoked and how they are timed. -/
structure DataOps (α : Type) where
  exchangeData : α → α
  computeDiagonal : α → α
  computePq : α → α

/-- The repetition loop of transpose::fpga_execution::cpu::calculate
(src/PTRANS/tests/test_kernel_functionality_and_host_integration.cpp lines
276-325), one RepCost per repetition, repetition index r counting up.
Per repetition: MPI_Barrier; startCalculation clock reading;
handler.exchangeData (inside the calculation window); the mkl computation
pass selected by the handler (the default branch throws); endCalculation
clock reading, so the calculation entry is exchangeTime + calculationTime;
then the closing handler.exchangeData (untimed) and the push of the never
updated transferTime variable, so the transfer entry is 0.
Returns (timing lists or the error thrown, final payload, event trace). -/
def cpuCalculateLoop {α : Type} (handler : DataHandlerType) (ops : DataOps α) :
    ℕ → List RepCost → α → (Except CalcError (List ℚ × List ℚ)) × α × List Event
  | _, [], d => (.ok ([], []), d, [])
  | r, c :: cs, d =>
    let d1 := ops.exchangeData d
    match handler with
    | .unsupported => (.error .unsupportedHandler, d1, [.barrier r, .exchange r 0])
    | .diagonal =>
      let d2 := ops.computeDiagonal d1
      let calcEntry := c.exchangeTime + c.calculationTime
      let d3 := ops.exchangeData d2
      let rest := cpuCalculateLoop handler ops (r + 1) cs d3
      (match rest.1 with
       | .error e => .error e
       | .ok p => .ok ((0 : ℚ) :: p.1, calcEntry :: p.2),
       rest.2.1,
       [.barrier r, .exchange r 0, .compute r, .exchange r 1] ++ rest.2.2)
    | .pq =>
      let d2 := ops.computePq d1
      let calcEntry := c.exchangeTime + c.calculationTime
      let d3 := ops.exchangeData d2
      let rest := cpuCalculateLoop handler ops (r + 1) cs d3
      (match rest.1 with
       | .error e => .error e
       | .ok p => .ok ((0 : ℚ) :: p.1, calcEntry :: p.2),
       rest.2.1,
       [.barrier r, .exchange r 0, .compute r, .exchange r 1] ++ rest.2.2)

/-- Embedding of transpose::fpga_execution::cpu::calculate
(src/PTRANS/tests/test_kernel_functionality_and_host_integration.cpp lines
262-331). blockSize is the configured data.blockSize, fixedBlockSize the
compile-time BLOCK_SIZE of the CPU build; if they differ a runtime error
is thrown before the repetition loop. Returns (the ExecutionTimings or the
error thrown, the final payload, the trace of operations performed). -/
def cpuCalculate {α : Type} (fixedBlockSize blockSize : ℕ) (handler : DataHandlerType)
    (ops : DataOps α) (costs : List RepCost) (payload : α) :
    (Except CalcError TransposeExecutionTimings) × α × List Event :=
  if blockSize ≠ fixedBlockSize then
    (.error .blockSizeMismatch, payload, [])
  else
    let res := cpuCalculateLoop handler ops 0 costs payload
    (res.1.map (fun p => ⟨p.1, p.2⟩), res.2.1, res.2.2)

/-- The per-repetition operation sequence of one node of the CPU
calculate: barrier, exchange, compute, exchange back. -/
def repetitionEvents (r : ℕ) : List Event :=
  [.barrier r, .exchange r 0, .compute r, .exchange r 1]

/-- The full operation sequence of one node executing `reps`
repetitions of the CPU calculate. -/
def nodeProgram (reps : ℕ) : List Event :=
  (List.range reps).flatMap repetitionEvents

/-- Multi-node semantics of the repetition loop (spec section 5): N nodes
each run nodeProgram; pos gives the index of the next operation of each
node. A node may perform its next operation at any time, except that it
completes a barrier of repetition r only once every node has arrived at
that barrier (operation index 4*r). This is the collective-barrier
semantics of the MPI_Barrier call at line 281, modelled from the spec. -/
inductive NodeStep (N reps : ℕ) : (Fin N → ℕ) → (Fin N → ℕ) → Prop where
  | step (pos : Fin N → ℕ) (n : Fin N) (hlt : pos n < (nodeProgram reps).length)
      (hbar : ∀ r, (nodeProgram reps).getD (pos n) (Event.compute 0) = Event.barrier r →
        ∀ m : Fin N, 4 * r ≤ pos m) :
      NodeStep N reps pos (Function.update pos n (pos n + 1))

/-- States of the N-node system reachable from the initial state in which
no node has performed any operation. -/
def Reachable (N reps : ℕ) (pos : Fin N → ℕ) : Prop :=
  Relation.ReflTransGen (NodeStep N reps) (fun _ => 0) pos

/-- Average transfer time reported by printResults
(src/PTRANS/src/host/transpose_functionality.cpp lines 83-84):
accumulate(begin, end, 0.0) divided by the number of entries. -/
def avgTransferTime (results : TransposeExecutionTimings) : ℚ :=
  results.transferTimings.foldl (· + ·) 0 / results.transferTimings.length

/-- Average calculation time reported by printResults (lines 88-89). -/
def avgCalculationTime (results : TransposeExecutionTimings) : ℚ :=
  results.calculationTimings.foldl (· + ·) 0 / results.calculationTimings.length

/-- std::min_element over a list: none on an empty list (where the C++
iterator would be past-the-end), otherwise the least element. -/
def minElementOf : List ℚ → Option ℚ
  | [] => none
  | x :: xs => some (xs.foldl min x)

/-- Minimum transfer time reported by printResults (line 85). -/
def minTransferTime (results : TransposeExecutionTimings) : Option ℚ :=
  minElementOf results.transferTimings

/-- Minimum calculation time reported by printResults (line 90). -/
def minCalculationTime (results : TransposeExecutionTimings) : Option ℚ :=
  minElementOf results.calculationTimings

/-- Row-major traversal order (i, j) of the n x n generation loops. -/
def cellList (n : ℕ) : List (ℕ × ℕ) :=
  (List.range n).flatMap (fun i => (List.range n).map (fun j => (i, j)))

/-- Embedding of generateInputData
(src/PTRANS/src/host/transpose_functionality.cpp lines 61-71): the random
stream is modelled by `rand`, consumed at position i*n+j for cell (i, j);
each loop iteration assigns A[i*n+j] from the stream and then
B[j*n+i] = -A[i*n+j] + 1.0. -/
def generateInputData (n : ℕ) (rand : ℕ → ℚ) : (ℕ → ℚ) × (ℕ → ℚ) :=
  (cellList n).foldl
    (fun AB ij =>
      let A1 := Function.update AB.1 (ij.1 * n + ij.2) (rand (ij.1 * n + ij.2))
      let B1 := Function.update AB.2 (ij.2 * n + ij.1) (-(A1 (ij.1 * n + ij.2)) + 1)
      (A1, B1))
    ((fun _ => 0), (fun _ => 0))

/-- Embedding of transposeReference
(src/PTRANS/src/host/transpose_functionality.cpp lines 50-58):
A_out[i*n+j] = A[j*n+i] + B[i*n+j] for all i, j below n. -/
def transposeReference (A B : ℕ → ℚ) (n : ℕ) : ℕ → ℚ :=
  storeAll (fun _ => 0)
    ((cellList n).map (fun ij => (ij.1 * n + ij.2, A (ij.2 * n + ij.1) + B (ij.1 * n + ij.2))))

/-- Embedding of printCalculationError
(src/PTRANS/src/host/transpose_functionality.cpp lines 110-120): the
maximum of fabs(result[i] - 1.0) over the n*n entries, starting from 0. -/
def printCalculationError (n : ℕ) (result : ℕ → ℚ) : ℚ :=
  (List.range (n * n)).foldl (fun maxError p => max |result p - 1| maxError) 0

end transpose

namespace linpack

/-- One diagonal step k of the sequential non-pivoting Gaussian
elimination. Modelled from the spec: gefa_ref_nopvt itself is not under
src/ (only its callers in src/unnamed/part_000 are); spec sections 4.3,
4.4 and 8 describe it as Gaussian elimination that always takes the
current diagonal entry as pivot. LINPACK storage convention: the entries
of column k below the diagonal are overwritten with the negated
multipliers, so that the forward-substitution phase of gesl can apply
them additively; the trailing entries receive the elimination update. -/
def gefaStep (k : ℕ) (a : ℕ → ℕ → ℚ) : ℕ → ℕ → ℚ :=
  fun j i =>
    if k < j ∧ i = k then -(a j k / a k k)
    else if k < j ∧ k < i then a j i - (a j k / a k k) * a k i
    else a j i

/-- The first k diagonal steps of gefa_ref_nopvt. -/
def gefaAux (a : ℕ → ℕ → ℚ) : ℕ → (ℕ → ℕ → ℚ)
  | 0 => a
  | k + 1 => gefaStep k (gefaAux a k)

/-- Modelled from the spec (sections 4.4, 8): the sequential non-pivoting
reference factorization over an n x n matrix, n diagonal steps. -/
def gefa_ref_nopvt (n : ℕ) (a : ℕ → ℕ → ℚ) : ℕ → ℕ → ℚ :=
  gefaAux a n

/-- Modelled from the spec (section 4.3): the multiplier column panel of
diagonal step s produced by the LU role, entry j below the diagonal is the
sub-diagonal entry scaled by the pivot (the current diagonal entry). -/
def multColumn (a : ℕ → ℕ → ℚ) (s j : ℕ) : ℚ :=
  a j s / a s s

/-- Modelled from the spec (section 4.3): the pivot row panel of diagonal
step s produced by the LU role: the entries of row s on and right of the
diagonal. -/
def pivotRow (a : ℕ → ℕ → ℚ) (s i : ℕ) : ℚ :=
  a s i

/-- Modelled from the spec (section 4.3): one diagonal step of the LU role
kernel, phrased through its two panels. Rows on or above the diagonal step
are left as they are; below, the column-s entry stores the (negated,
LINPACK storage convention) multiplier-column value, and the trailing
block receives the rank-1 update by the multiplier column times the pivot
row. -/
def luStep (s : ℕ) (a : ℕ → ℕ → ℚ) : ℕ → ℕ → ℚ :=
  fun j i =>
    if j ≤ s then a j i
    else if i = s then -(multColumn a s j)
    else if s < i then a j i - multColumn a s j * pivotRow a s i
    else a j i

/-- The first k diagonal steps of the LU role kernel. -/
def luAux (a : ℕ → ℕ → ℚ) : ℕ → (ℕ → ℕ → ℚ)
  | 0 => a
  | k + 1 => luStep k (luAux a k)

/-- Modelled from the spec (section 4.3): the LU role kernel factorizes
its local block by n diagonal steps of pivot-free elimination. -/
def luRole (n : ℕ) (a : ℕ → ℕ → ℚ) : ℕ → ℕ → ℚ :=
  luAux a n

/-- Mathematical elimination step k on the matrix: every row below k has
the multiple (row j, column k over pivot) of row k subtracted, over all
columns. Unlike gefaStep this puts actual zeros below the diagonal of the
processed columns instead of storing multipliers; it is the bookkeeping
companion used to reason about gefaStep. -/
def elimStep (k : ℕ) (a : ℕ → ℕ → ℚ) : ℕ → ℕ → ℚ :=
  fun j i =>
    if k < j then a j i - (a j k / a k k) * a k i else a j i

/-- The first k mathematical elimination steps. -/
def elimAux (a : ℕ → ℕ → ℚ) : ℕ → (ℕ → ℕ → ℚ)
  | 0 => a
  | k + 1 => elimStep k (elimAux a k)

/-- Mathematical elimination step k applied to the right-hand side: entry
j below k has the same multiple of entry k subtracted that elimStep k
subtracts from row j. -/
def elimVecStep (e : ℕ → ℕ → ℚ) (k : ℕ) (b : ℕ → ℚ) : ℕ → ℚ :=
  fun j =>
    if k < j then b j - (e j k / e k k) * b k else b j

/-- The first k mathematical elimination steps on the right-hand side,
each using the matrix state elimAux a t of its step t. -/
def elimVecAux (a : ℕ → ℕ → ℚ) : ℕ → (ℕ → ℚ) → (ℕ → ℚ)
  | 0, b => b
  | k + 1, b => elimVecStep (elimAux a k) k (elimVecAux a k b)

/-- Modelled from the spec (section 4.4): step k of the forward
substitution phase of gesl_ref_nopvt. With the factorized matrix g in
LINPACK storage, entry i below k accumulates b k times the stored negated
multiplier g i k. -/
def geslForwardStep (g : ℕ → ℕ → ℚ) (k : ℕ) (b : ℕ → ℚ) : ℕ → ℚ :=
  fun i =>
    if k < i then b i + b k * g i k else b i

/-- The first k forward-substitution steps of gesl_ref_nopvt. -/
def geslForwardAux (g : ℕ → ℕ → ℚ) : ℕ → (ℕ → ℚ) → (ℕ → ℚ)
  | 0, b => b
  | k + 1, b => geslForwardStep g k (geslForwardAux g k b)

/-- Modelled from the spec (section 4.4): step k of the back substitution
phase of gesl_ref_nopvt, processed for k descending: entry k is divided by
the diagonal entry, then every entry above k subtracts its column-k
coefficient times the now-final entry k. -/
def geslBackStep (g : ℕ → ℕ → ℚ) (k : ℕ) (b : ℕ → ℚ) : ℕ → ℚ :=
  fun i =>
    if i = k then b k / g k k
    else if i < k then b i - b k / g k k * g i k
    else b i

/-- The back-substitution steps m-1, m-2, ..., 0 of gesl_ref_nopvt. -/
def geslBackAux (g : ℕ → ℕ → ℚ) : ℕ → (ℕ → ℚ) → (ℕ → ℚ)
  | 0, b => b
  | m + 1, b => geslBackAux g m (geslBackStep g m b)

/-- Modelled from the spec (section 4.4): gesl_ref_nopvt, forward
substitution through the stored multipliers followed by back substitution
through the stored upper triangle, over an n x n system. -/
def gesl_ref_nopvt (g : ℕ → ℕ → ℚ) (n : ℕ) (b : ℕ → ℚ) : ℕ → ℚ :=
  geslBackAux g n (geslForwardAux g n b)

/-- x solves the n x n linear system a x = b (rows below n, columns below
n). -/
def Solves (n : ℕ) (a : ℕ → ℕ → ℚ) (b x : ℕ → ℚ) : Prop :=
  ∀ r < n, (∑ i ∈ Finset.range n, a r i * x i) = b r

/-- The trailing block with rows and columns in [k, n) of the matrix is
strictly diagonally dominant by rows. -/
def SDDfrom (k n : ℕ) (a : ℕ → ℕ → ℚ) : Prop :=
  ∀ r ∈ Finset.Ico k n, (∑ i ∈ (Finset.Ico k n).erase r, |a r i|) < |a r r|

/-- The n x n matrix is strictly diagonally dominant by rows (the
diagonally-dominant input property of the spec, sections 3 and 8). -/
def StrictDiagDominant (n : ℕ) (a : ℕ → ℕ → ℚ) : Prop :=
  SDDfrom 0 n a

/-- Modelled from the spec (sections 4.5, 6): the scalar maximum-error
validation value of the harness, the maximum absolute residual of the
computed solution x over the n equations of the system a x = b. In exact
arithmetic a validation pass within floating-point epsilon is the value 0. -/
def residualMax (n : ℕ) (a : ℕ → ℕ → ℚ) (b x : ℕ → ℚ) : ℚ :=
  (List.range n).foldl
    (fun maxError r => max |(∑ i ∈ Finset.range n, a r i * x i) - b r| maxError) 0

/-- Modelled from the spec (sections 4.2, 4.3, 8) and the chunk schedule
asserted by the Top-node tests (src/unnamed/part_000 lines 111-127 and
205-264): the values a Top-row node sends east are the relayed pivot-row
values, row i of the block contributing the columns from (i/chunk)*chunk
to B-1. -/
def topEastChannelValues (B chunk : ℕ) (relayed : ℕ → ℕ → ℚ) : List ℚ :=
  (List.range B).flatMap
    (fun i => (List.range' ((i / chunk) * chunk) (B - (i / chunk) * chunk)).map
      (fun j => relayed i j))

/-- Modelled from the spec (sections 4.2, 4.3) and the Top-node tests
(src/unnamed/part_000 lines 230-236, 266-286): a Top-row node forwards its
full updated B x B block south, one value per cell. -/
def topSouthChannelValues (B : ℕ) (blockOut : ℕ → ℕ → ℚ) : List ℚ :=
  (List.range B).flatMap (fun i => (List.range B).map (fun j => blockOut i j))

/-- Modelled from the spec (section 4.2): the north neighbour of a Top-row
node is outside the active sub-grid, so nothing is sent north. -/
def topNorthChannelValues : List ℚ := []

/-- Modelled from the spec (section 4.2): the west-bound channel of a
Top-row node carries no values, the pivot panel travels eastward only. -/
def topWestChannelValues : List ℚ := []

end linpack

/-
Theorems. Helper lemmas come first inside each block, the per-claim
theorems are marked with their claim id.
-/

theorem storeAll_cons (g : ℕ → ℚ) (w : ℕ × ℚ) (ws : List (ℕ × ℚ)) :
    storeAll g (w :: ws) = storeAll (Function.update g w.1 w.2) ws := rfl

theorem storeAll_not_mem (g : ℕ → ℚ) (ws : List (ℕ × ℚ)) (k : ℕ)
    (h : k ∉ ws.map Prod.fst) : storeAll g ws k = g k := by
  induction ws generalizing g with
  | nil => rfl
  | cons w ws ih =>
    simp only [List.map_cons, List.mem_cons] at h
    push_neg at h
    rw [storeAll_cons, ih _ h.2, Function.update_noteq h.1]

theorem storeAll_mem (g : ℕ → ℚ) (ws : List (ℕ × ℚ)) (k : ℕ) (v : ℚ)
    (hnd : (ws.map Prod.fst).Nodup) (hmem : (k, v) ∈ ws) : storeAll g ws k = v := by
  induction ws generalizing g with
  | nil => exact absurd hmem (List.not_mem_nil _)
  | cons w ws ih =>
    simp only [List.map_cons, List.nodup_cons] at hnd
    rcases List.mem_cons.mp hmem with h | h
    · subst h
      rw [storeAll_cons, storeAll_not_mem _ _ _ hnd.1, Function.update_same]
    · rw [storeAll_cons, ih _ hnd.2 h]

theorem rowMajorKey_inj {n a b c d : ℕ} (hb : b < n) (hd : d < n)
    (h : a * n + b = c * n + d) : a = c ∧ b = d := by
  have hn : 0 < n := lt_of_le_of_lt (Nat.zero_le b) hb
  have ha : a = (a * n + b) / n := by
    rw [Nat.mul_comm a n, Nat.mul_add_div hn, Nat.div_eq_of_lt hb, Nat.add_zero]
  have hc : c = (c * n + d) / n := by
    rw [Nat.mul_comm c n, Nat.mul_add_div hn, Nat.div_eq_of_lt hd, Nat.add_zero]
  have hac : a = c := by rw [ha, h, ← hc]
  refine ⟨hac, ?_⟩
  subst hac
  exact Nat.add_left_cancel h

theorem cellList_eq_flatMap (n : ℕ) (f : ℕ × ℕ → ℕ) :
    (transpose.cellList n).map f =
      (List.range n).flatMap (fun i => (List.range n).map (fun j => f (i, j))) := by
  simp [transpose.cellList, List.map_flatMap, Function.comp_def]

theorem mem_cellList {n : ℕ} {i j : ℕ} :
    (i, j) ∈ transpose.cellList n ↔ i < n ∧ j < n := by
  simp [transpose.cellList, List.mem_flatMap]

theorem cellKeysA_nodup (n : ℕ) :
    ((transpose.cellList n).map (fun ij => ij.1 * n + ij.2)).Nodup := by
  rw [cellList_eq_flatMap]
  rw [List.nodup_flatMap]
  constructor
  · intro i _
    exact (List.nodup_range n).map (fun a b h => by simp only [] at h; omega)
  · refine List.Pairwise.imp_of_mem ?_ (List.pairwise_lt_range n)
    intro i i' _ _ hlt a ha ha'
    simp only [List.mem_map, List.mem_range] at ha ha'
    obtain ⟨j, hj, rfl⟩ := ha
    obtain ⟨j', hj', heq⟩ := ha'
    have := rowMajorKey_inj hj' hj heq
    omega

theorem cellKeysB_nodup (n : ℕ) :
    ((transpose.cellList n).map (fun ij => ij.2 * n + ij.1)).Nodup := by
  rw [cellList_eq_flatMap]
  rw [List.nodup_flatMap]
  constructor
  · intro i hi
    simp only [List.mem_range] at hi
    refine (List.nodup_range n).map (fun a b h => ?_)
    simp only [] at h
    exact (rowMajorKey_inj hi hi h).1
  · refine List.Pairwise.imp_of_mem ?_ (List.pairwise_lt_range n)
    intro i i' hi hi' hlt a ha ha'
    simp only [List.mem_range] at hi hi'
    simp only [List.mem_map, List.mem_range] at ha ha'
    obtain ⟨j, hj, rfl⟩ := ha
    obtain ⟨j', hj', heq⟩ := ha'
    have := rowMajorKey_inj hi' hi heq
    omega

theorem generateInputData_foldl_eq (n : ℕ) (rand : ℕ → ℚ) (l : List (ℕ × ℕ))
    (A0 B0 : ℕ → ℚ) :
    l.foldl
      (fun AB ij =>
        let A1 := Function.update AB.1 (ij.1 * n + ij.2) (rand (ij.1 * n + ij.2))
        let B1 := Function.update AB.2 (ij.2 * n + ij.1) (-(A1 (ij.1 * n + ij.2)) + 1)
        (A1, B1)) (A0, B0) =
    (storeAll A0 (l.map (fun ij => (ij.1 * n + ij.2, rand (ij.1 * n + ij.2)))),
     storeAll B0 (l.map (fun ij => (ij.2 * n + ij.1, -(rand (ij.1 * n + ij.2)) + 1)))) := by
  induction l generalizing A0 B0 with
  | nil => rfl
  | cons x l ih =>
    rw [List.foldl_cons]
    show l.foldl _
      (Function.update A0 (x.1 * n + x.2) (rand (x.1 * n + x.2)),
       Function.update B0 (x.2 * n + x.1)
         (-(Function.update A0 (x.1 * n + x.2) (rand (x.1 * n + x.2)) (x.1 * n + x.2)) + 1)) = _
    rw [Function.update_same, List.map_cons, List.map_cons, storeAll_cons, storeAll_cons]
    exact ih _ _

theorem generateInputData_eq (n : ℕ) (rand : ℕ → ℚ) :
    transpose.generateInputData n rand =
      (storeAll (fun _ => 0)
        ((transpose.cellList n).map (fun ij => (ij.1 * n + ij.2, rand (ij.1 * n + ij.2)))),
       storeAll (fun _ => 0)
        ((transpose.cellList n).map
          (fun ij => (ij.2 * n + ij.1, -(rand (ij.1 * n + ij.2)) + 1)))) :=
  generateInputData_foldl_eq n rand (transpose.cellList n) _ _

theorem generateInputData_A {n i j : ℕ} (rand : ℕ → ℚ) (hi : i < n) (hj : j < n) :
    (transpose.generateInputData n rand).1 (i * n + j) = rand (i * n + j) := by
  rw [generateInputData_eq]
  refine storeAll_mem _ _ _ _ ?_ ?_
  · simp only [List.map_map]
    exact cellKeysA_nodup n
  · exact List.mem_map.mpr ⟨(i, j), mem_cellList.mpr ⟨hi, hj⟩, rfl⟩

theorem generateInputData_B {n i j : ℕ} (rand : ℕ → ℚ) (hi : i < n) (hj : j < n) :
    (transpose.generateInputData n rand).2 (j * n + i) = -(rand (i * n + j)) + 1 := by
  rw [generateInputData_eq]
  refine storeAll_mem _ _ _ _ ?_ ?_
  · simp only [List.map_map]
    exact cellKeysB_nodup n
  · exact List.mem_map.mpr ⟨(i, j), mem_cellList.mpr ⟨hi, hj⟩, rfl⟩

theorem transposeReference_cell {n i j : ℕ} (A B : ℕ → ℚ) (hi : i < n) (hj : j < n) :
    transpose.transposeReference A B n (i * n + j) = A (j * n + i) + B (i * n + j) := by
  refine storeAll_mem _ _ _ _ ?_ ?_
  · simp only [List.map_map]
    exact cellKeysA_nodup n
  · exact List.mem_map.mpr ⟨(i, j), mem_cellList.mpr ⟨hi, hj⟩, rfl⟩

theorem foldl_max_abs_one_zero (g : ℕ → ℚ) (l : List ℕ) (h : ∀ p ∈ l, g p = 1) :
    l.foldl (fun maxError p => max |g p - 1| maxError) 0 = 0 := by
  induction l with
  | nil => rfl
  | cons x l ih =>
    rw [List.foldl_cons, h x (List.mem_cons_self x l)]
    simp only [sub_self, abs_zero, max_self]
    exact ih (fun p hp => h p (List.mem_cons_of_mem x hp))

/-- C10: for every matrix size n, generateInputData produces matrices with
B[j*n+i] = -A[i*n+j] + 1.0 for all i, j below n; transposeReference on
them yields a matrix whose every entry equals 1 exactly (in the exact
arithmetic of the model, hence within floating-point epsilon); and
printCalculationError on that result returns a maximum error of 0. -/
theorem C10_generateInputData_transpose_all_ones (n : ℕ) (rand : ℕ → ℚ) :
    (∀ i < n, ∀ j < n,
      (transpose.generateInputData n rand).2 (j * n + i) =
        -((transpose.generateInputData n rand).1 (i * n + j)) + 1) ∧
    (∀ i < n, ∀ j < n,
      transpose.transposeReference (transpose.generateInputData n rand).1
        (transpose.generateInputData n rand).2 n (i * n + j) = 1) ∧
    transpose.printCalculationError n
      (transpose.transposeReference (transpose.generateInputData n rand).1
        (transpose.generateInputData n rand).2 n) = 0 := by
  have hB : ∀ i < n, ∀ j < n,
      (transpose.generateInputData n rand).2 (j * n + i) =
        -((transpose.generateInputData n rand).1 (i * n + j)) + 1 := by
    intro i hi j hj
    rw [generateInputData_B rand hi hj, generateInputData_A rand hi hj]
  have hT : ∀ i < n, ∀ j < n,
      transpose.transposeReference (transpose.generateInputData n rand).1
        (transpose.generateInputData n rand).2 n (i * n + j) = 1 := by
    intro i hi j hj
    rw [transposeReference_cell _ _ hi hj, generateInputData_A rand hj hi,
      generateInputData_B rand hj hi]
    ring
  refine ⟨hB, hT, ?_⟩
  unfold transpose.printCalculationError
  refine foldl_max_abs_one_zero _ _ (fun p hp => ?_)
  rw [List.mem_range] at hp
  have hn : 0 < n := by
    rcases Nat.eq_zero_or_pos n with h0 | h0
    · subst h0; omega
    · exact h0
  have hkey : p = p / n * n + p % n := by
    conv_lhs => rw [← Nat.div_add_mod p n]
    ring
  rw [hkey]
  exact hT (p / n) ((Nat.div_lt_iff_lt_mul hn).mpr hp) (p % n) (Nat.mod_lt p hn)

/-- Witness for C10 at the concrete size n = 1 with a constant stream. -/
theorem C10_generateInputData_transpose_all_ones_witness :
    (∀ i < 1, ∀ j < 1,
      (transpose.generateInputData 1 (fun _ => 5)).2 (j * 1 + i) =
        -((transpose.generateInputData 1 (fun _ => 5)).1 (i * 1 + j)) + 1) ∧
    (∀ i < 1, ∀ j < 1,
      transpose.transposeReference (transpose.generateInputData 1 (fun _ => 5)).1
        (transpose.generateInputData 1 (fun _ => 5)).2 1 (i * 1 + j) = 1) ∧
    transpose.printCalculationError 1
      (transpose.transposeReference (transpose.generateInputData 1 (fun _ => 5)).1
        (transpose.generateInputData 1 (fun _ => 5)).2 1) = 0 :=
  C10_generateInputData_transpose_all_ones 1 (fun _ => 5)

/-- C6: reading a mirrored channel stream back returns exactly the written
sequence of fixed-width values: same values, same order, same count. -/
theorem C6_channel_write_read_roundtrip (w : ℕ) (vals : List (List ℕ)) (hw : 0 < w)
    (hlen : ∀ v ∈ vals, v.length = w) :
    channel.getDataFromExternalChannel w (channel.writeExternalChannel vals) = vals := by
  induction vals with
  | nil =>
    rw [channel.writeExternalChannel, channel.getDataFromExternalChannel]
    simp only [List.flatten_nil, List.length_nil]
    rw [dif_neg (by omega)]
  | cons v vs ih =>
    have hv : v.length = w := hlen v (List.mem_cons_self v vs)
    rw [channel.writeExternalChannel] at ih ⊢
    rw [List.flatten_cons, channel.getDataFromExternalChannel]
    rw [dif_pos ⟨hw, by simp [hv]⟩]
    rw [← hv, List.take_left, List.drop_left]
    rw [hv, ih (fun u hu => hlen u (List.mem_cons_of_mem v hu))]

/-- Witness for C6: a two-value stream of width 2 round-trips. -/
theorem C6_channel_write_read_roundtrip_witness :
    0 < 2 ∧
    channel.getDataFromExternalChannel 2 (channel.writeExternalChannel [[1, 2], [3, 4]]) =
      [[1, 2], [3, 4]] :=
  ⟨by decide, C6_channel_write_read_roundtrip 2 [[1, 2], [3, 4]] (by decide) (by decide)⟩

theorem foldl_min_le (l : List ℚ) : ∀ x : ℚ, l.foldl min x ≤ x ∧ ∀ y ∈ l, l.foldl min x ≤ y := by
  induction l with
  | nil => exact fun x => ⟨le_refl x, fun y hy => absurd hy (List.not_mem_nil y)⟩
  | cons z l ih =>
    intro x
    rw [List.foldl_cons]
    refine ⟨le_trans (ih (min x z)).1 (min_le_left x z), fun y hy => ?_⟩
    rcases List.mem_cons.mp hy with rfl | h
    · exact le_trans (ih _).1 (min_le_right _ _)
    · exact (ih (min x z)).2 y h

theorem foldl_min_mem (l : List ℚ) : ∀ x : ℚ, l.foldl min x = x ∨ l.foldl min x ∈ l := by
  induction l with
  | nil => exact fun x => Or.inl rfl
  | cons z l ih =>
    intro x
    rw [List.foldl_cons]
    rcases ih (min x z) with h | h
    · rcases min_choice x z with hm | hm
      · exact Or.inl (h.trans hm)
      · exact Or.inr (List.mem_cons.mpr (Or.inl (h.trans hm)))
    · exact Or.inr (List.mem_cons.mpr (Or.inr h))

theorem minElementOf_spec (l : List ℚ) (hne : l ≠ []) :
    ∃ m, transpose.minElementOf l = some m ∧ m ∈ l ∧ ∀ y ∈ l, m ≤ y := by
  match l, hne with
  | x :: xs, _ =>
    refine ⟨xs.foldl min x, rfl, ?_, ?_⟩
    · rcases foldl_min_mem xs x with h | h
      · rw [h]
        exact List.mem_cons_self x xs
      · exact List.mem_cons_of_mem x h
    · intro y hy
      rcases List.mem_cons.mp hy with rfl | h
      · exact (foldl_min_le xs _).1
      · exact (foldl_min_le xs x).2 y h

/-- C8: for non-empty timing sequences, the summary statistics computed by
printResults are the arithmetic mean (sum of the entries divided by their
count) and the minimum of the transfer-time entries and, separately, of
the calculation-time entries. -/
theorem C8_printResults_mean_and_min (t : transpose.TransposeExecutionTimings)
    (ht : t.transferTimings ≠ []) (hc : t.calculationTimings ≠ []) :
    transpose.avgTransferTime t = t.transferTimings.sum / t.transferTimings.length ∧
    transpose.avgCalculationTime t = t.calculationTimings.sum / t.calculationTimings.length ∧
    (∃ m, transpose.minTransferTime t = some m ∧ m ∈ t.transferTimings ∧
      ∀ y ∈ t.transferTimings, m ≤ y) ∧
    (∃ m, transpose.minCalculationTime t = some m ∧ m ∈ t.calculationTimings ∧
      ∀ y ∈ t.calculationTimings, m ≤ y) := by
  refine ⟨?_, ?_, minElementOf_spec _ ht, minElementOf_spec _ hc⟩
  · rw [transpose.avgTransferTime, List.sum_eq_foldl]
  · rw [transpose.avgCalculationTime, List.sum_eq_foldl]

/-- Witness for C8 at a concrete two-entry transfer list and one-entry
calculation list. -/
theorem C8_printResults_mean_and_min_witness :
    transpose.avgTransferTime ⟨[3, 1], [2]⟩ = ([3, 1] : List ℚ).sum / ([3, 1] : List ℚ).length ∧
    transpose.avgCalculationTime ⟨[3, 1], [2]⟩ =
      ([2] : List ℚ).sum / ([2] : List ℚ).length ∧
    (∃ m, transpose.minTransferTime ⟨[3, 1], [2]⟩ = some m ∧ m ∈ ([3, 1] : List ℚ) ∧
      ∀ y ∈ ([3, 1] : List ℚ), m ≤ y) ∧
    (∃ m, transpose.minCalculationTime ⟨[3, 1], [2]⟩ = some m ∧ m ∈ ([2] : List ℚ) ∧
      ∀ y ∈ ([2] : List ℚ), m ≤ y) :=
  C8_printResults_mean_and_min ⟨[3, 1], [2]⟩ (by simp) (by simp)

theorem sum_range_eq_list_sum (n : ℕ) (f : ℕ → ℕ) :
    ∑ i ∈ Finset.range n, f i = ((List.range n).map f).sum := by
  induction n with
  | zero => simp
  | succ m ih =>
    rw [Finset.sum_range_succ, List.range_succ]
    simp [ih]

/-- C3: for a Top-row node with block size B and chunk granularity chunk,
the east-bound channel carries the sum over i below B of
(B - (i/chunk)*chunk) values, the south-bound channel carries B*B values,
and the north- and west-bound channels (pointing outside the active
sub-grid) carry exactly 0 values. -/
theorem C3_top_channel_value_counts (B chunk : ℕ) (relayed blockOut : ℕ → ℕ → ℚ) :
    (linpack.topEastChannelValues B chunk relayed).length =
      (∑ i ∈ Finset.range B, (B - i / chunk * chunk)) ∧
    (linpack.topSouthChannelValues B blockOut).length = B * B ∧
    linpack.topNorthChannelValues.length = 0 ∧
    linpack.topWestChannelValues.length = 0 := by
  refine ⟨?_, ?_, rfl, rfl⟩
  · rw [sum_range_eq_list_sum]
    simp only [linpack.topEastChannelValues, List.length_flatMap, List.map_map]
    congr 1
    refine List.map_congr_left (fun i _ => ?_)
    simp [List.length_range']
  · simp only [linpack.topSouthChannelValues, List.length_flatMap, List.map_map]
    have : ((List.range B).map (List.length ∘ fun i => (List.range B).map (fun j => blockOut i j))) =
        (List.range B).map (fun _ => B) := by
      refine List.map_congr_left (fun i _ => ?_)
      simp
    rw [this]
    have h2 : (List.range B).map (fun _ => B) = List.replicate B B := by
      simp [List.map_const']
    rw [h2, List.sum_replicate, smul_eq_mul]

theorem calculateLoop_timings (gefa : bm_execution.GefaKernel) (clock : ℕ → ℚ) :
    ∀ (r i : ℕ) (s : bm_execution.CalcState),
      (bm_execution.calculateLoop gefa clock i r s).2.1 =
        (List.range r).map (fun k => clock (2 * (i + k) + 1) - clock (2 * (i + k))) := by
  intro r
  induction r with
  | zero => intro i s; rfl
  | succ m ih =>
    intro i s
    rw [bm_execution.calculateLoop, ih (i + 1)]
    rw [List.range_succ_eq_map, List.map_cons, List.map_map]
    refine congrArg₂ List.cons (by simp) ?_
    refine List.map_congr_left (fun k _ => ?_)
    simp only [Function.comp_apply]
    have h1 : i + 1 + k = i + (k + 1) := by omega
    rw [h1]

/-- C2 (amended): for every repetition count r, calculate returns an
ExecutionTimings whose calculationTimings has exactly r entries, each a
non-negative duration when the clock readings are monotone; the record
contains no transfer-time entries. -/
theorem C2_calculate_calculation_timings (r : ℕ) (clock : ℕ → ℚ) (hmono : Monotone clock)
    (gefa : bm_execution.GefaKernel)
    (gesl_ref : (ℕ → ℚ) → (ℕ → ℚ) → (ℕ → ℤ) → (ℕ → ℚ)) (s0 : bm_execution.CalcState) :
    ((bm_execution.calculate r clock gefa gesl_ref s0).1.calculationTimings.length = r) ∧
    (∀ x ∈ (bm_execution.calculate r clock gefa gesl_ref s0).1.calculationTimings, 0 ≤ x) ∧
    bm_execution.transferTimings (bm_execution.calculate r clock gefa gesl_ref s0).1 = [] := by
  have hloop := calculateLoop_timings gefa clock r 0 s0
  have hcalc : (bm_execution.calculate r clock gefa gesl_ref s0).1.calculationTimings =
      (bm_execution.calculateLoop gefa clock 0 r s0).2.1 := rfl
  refine ⟨?_, ?_, rfl⟩
  · rw [hcalc, hloop, List.length_map, List.length_range]
  · intro x hx
    rw [hcalc, hloop] at hx
    obtain ⟨k, _, rfl⟩ := List.mem_map.mp hx
    exact sub_nonneg.mpr (hmono (by omega))

/-- Witness for C2 at r = 2 with the identity clock, an identity kernel
and trivial initial state. -/
theorem C2_calculate_calculation_timings_witness :
    ((bm_execution.calculate 2 (fun n => (n : ℚ)) ⟨fun A => (A, fun _ => 0)⟩ (fun _ b _ => b)
        ⟨⟨fun _ => 0, fun _ => 0, fun _ => 0⟩, fun _ => 0, fun _ => 0⟩).1.calculationTimings.length
      = 2) ∧
    (∀ x ∈ (bm_execution.calculate 2 (fun n => (n : ℚ)) ⟨fun A => (A, fun _ => 0)⟩
        (fun _ b _ => b)
        ⟨⟨fun _ => 0, fun _ => 0, fun _ => 0⟩, fun _ => 0, fun _ => 0⟩).1.calculationTimings,
      0 ≤ x) ∧
    bm_execution.transferTimings
      (bm_execution.calculate 2 (fun n => (n : ℚ)) ⟨fun A => (A, fun _ => 0)⟩ (fun _ b _ => b)
        ⟨⟨fun _ => 0, fun _ => 0, fun _ => 0⟩, fun _ => 0, fun _ => 0⟩).1 = [] :=
  C2_calculate_calculation_timings 2 (fun n => (n : ℚ))
    (fun _ _ h => Nat.cast_le.mpr h) ⟨fun A => (A, fun _ => 0)⟩ (fun _ b _ => b)
    ⟨⟨fun _ => 0, fun _ => 0, fun _ => 0⟩, fun _ => 0, fun _ => 0⟩

/-- C2 counterexample: at repetition count r = 10 the ExecutionTimings
returned by calculate does not contain 10 transfer-time entries: the
record (src/unnamed/part_001 lines 109-111, src/unnamed/part_002 lines
44-48) has no transfer-time sequence at all, so it contains 0 of them. -/
theorem C2_counterexample_no_transfer_entries :
    ¬ ((bm_execution.transferTimings
        (bm_execution.calculate 10 (fun n => (n : ℚ)) ⟨fun A => (A, fun _ => 0)⟩
          (fun _ b _ => b)
          ⟨⟨fun _ => 0, fun _ => 0, fun _ => 0⟩, fun _ => 0, fun _ => 0⟩).1).length = 10) := by
  simp [bm_execution.transferTimings]

theorem calculateLoop_host_unchanged (gefa : bm_execution.GefaKernel) (clock : ℕ → ℚ) :
    ∀ (r i : ℕ) (s : bm_execution.CalcState),
      (bm_execution.calculateLoop gefa clock i r s).1.host = s.host := by
  intro r
  induction r with
  | zero => intro i s; rfl
  | succ m ih =>
    intro i s
    rw [bm_execution.calculateLoop]
    exact ih (i + 1) (bm_execution.calculateIteration gefa s).1

theorem calculateLoop_log (gefa : bm_execution.GefaKernel) (clock : ℕ → ℚ) :
    ∀ (r i : ℕ) (s : bm_execution.CalcState),
      (bm_execution.calculateLoop gefa clock i r s).2.2 = List.replicate r s.host.A := by
  intro r
  induction r with
  | zero => intro i s; rfl
  | succ m ih =>
    intro i s
    rw [bm_execution.calculateLoop, List.replicate_succ]
    have hhost : (bm_execution.calculateIteration gefa s).1.host = s.host := rfl
    rw [ih (i + 1) (bm_execution.calculateIteration gefa s).1, hhost]
    rfl

theorem calculateLoop_dev_final (gefa : bm_execution.GefaKernel) (clock : ℕ → ℚ) :
    ∀ (r i : ℕ) (s : bm_execution.CalcState), 0 < r →
      (bm_execution.calculateLoop gefa clock i r s).1.dev =
        ⟨(gefa.run s.host.A).1, (gefa.run s.host.A).2⟩ := by
  intro r
  induction r with
  | zero => intro i s h; omega
  | succ m ih =>
    intro i s _
    rw [bm_execution.calculateLoop]
    rcases Nat.eq_zero_or_pos m with h0 | h0
    · subst h0; rfl
    · have hhost : (bm_execution.calculateIteration gefa s).1.host = s.host := rfl
      rw [ih (i + 1) (bm_execution.calculateIteration gefa s).1 h0, hhost]

/-- C9: every repetition of bm_execution::calculate rewrites the device
buffer from the host matrix A before the kernel runs, so each repetition
starts from the identical input; the host arrays A, b and ipvt are
unchanged throughout the repetition loop; and afterwards the results are
read back once and the substitution gesl_ref is applied exactly once, to
the read-back factorization and the untouched right-hand side. -/
theorem C9_calculate_frame_effects (reps : ℕ) (clock : ℕ → ℚ)
    (gefa : bm_execution.GefaKernel)
    (gesl_ref : (ℕ → ℚ) → (ℕ → ℚ) → (ℕ → ℤ) → (ℕ → ℚ)) (s0 : bm_execution.CalcState) :
    (bm_execution.calculateLoop gefa clock 0 reps s0).1.host = s0.host ∧
    (bm_execution.calculate reps clock gefa gesl_ref s0).2.2 =
      List.replicate reps s0.host.A ∧
    (bm_execution.calculate reps clock gefa gesl_ref s0).2.1 =
      { A := (bm_execution.calculateLoop gefa clock 0 reps s0).1.dev.buffer_a,
        b := gesl_ref (bm_execution.calculateLoop gefa clock 0 reps s0).1.dev.buffer_a
               s0.host.b
               (bm_execution.calculateLoop gefa clock 0 reps s0).1.dev.buffer_pivot,
        ipvt := (bm_execution.calculateLoop gefa clock 0 reps s0).1.dev.buffer_pivot } ∧
    (0 < reps →
      (bm_execution.calculateLoop gefa clock 0 reps s0).1.dev.buffer_a =
        (gefa.run s0.host.A).1) := by
  have hhost := calculateLoop_host_unchanged gefa clock reps 0 s0
  refine ⟨hhost, calculateLoop_log gefa clock reps 0 s0, ?_, ?_⟩
  · show bm_execution.HostState.mk _ _ _ = _
    rw [hhost]
  · intro hpos
    rw [calculateLoop_dev_final gefa clock reps 0 s0 hpos]

/-- Witness for C9 at one repetition with an identity kernel. -/
theorem C9_calculate_frame_effects_witness :
    (bm_execution.calculateLoop ⟨fun A => (A, fun _ => 7)⟩ (fun n => (n : ℚ)) 0 1
        ⟨⟨fun _ => 3, fun _ => 4, fun _ => 5⟩, fun _ => 0, fun _ => 0⟩).1.host =
      (⟨⟨fun _ => 3, fun _ => 4, fun _ => 5⟩, fun _ => 0, fun _ => 0⟩ :
        bm_execution.CalcState).host ∧
    (bm_execution.calculate 1 (fun n => (n : ℚ)) ⟨fun A => (A, fun _ => 7)⟩ (fun _ b _ => b)
        ⟨⟨fun _ => 3, fun _ => 4, fun _ => 5⟩, fun _ => 0, fun _ => 0⟩).2.2 =
      List.replicate 1
        (⟨⟨fun _ => 3, fun _ => 4, fun _ => 5⟩, fun _ => 0, fun _ => 0⟩ :
          bm_execution.CalcState).host.A ∧
    (bm_execution.calculate 1 (fun n => (n : ℚ)) ⟨fun A => (A, fun _ => 7)⟩ (fun _ b _ => b)
        ⟨⟨fun _ => 3, fun _ => 4, fun _ => 5⟩, fun _ => 0, fun _ => 0⟩).2.1 =
      { A := (bm_execution.calculateLoop ⟨fun A => (A, fun _ => 7)⟩ (fun n => (n : ℚ)) 0 1
          ⟨⟨fun _ => 3, fun _ => 4, fun _ => 5⟩, fun _ => 0, fun _ => 0⟩).1.dev.buffer_a,
        b := (fun (_ : ℕ → ℚ) (b : ℕ → ℚ) (_ : ℕ → ℤ) => b)
          (bm_execution.calculateLoop ⟨fun A => (A, fun _ => 7)⟩ (fun n => (n : ℚ)) 0 1
            ⟨⟨fun _ => 3, fun _ => 4, fun _ => 5⟩, fun _ => 0, fun _ => 0⟩).1.dev.buffer_a
          (⟨⟨fun _ => 3, fun _ => 4, fun _ => 5⟩, fun _ => 0, fun _ => 0⟩ :
            bm_execution.CalcState).host.b
          (bm_execution.calculateLoop ⟨fun A => (A, fun _ => 7)⟩ (fun n => (n : ℚ)) 0 1
            ⟨⟨fun _ => 3, fun _ => 4, fun _ => 5⟩, fun _ => 0, fun _ => 0⟩).1.dev.buffer_pivot,
        ipvt := (bm_execution.calculateLoop ⟨fun A => (A, fun _ => 7)⟩ (fun n => (n : ℚ)) 0 1
          ⟨⟨fun _ => 3, fun _ => 4, fun _ => 5⟩, fun _ => 0, fun _ => 0⟩).1.dev.buffer_pivot } ∧
    (0 < 1 →
      (bm_execution.calculateLoop ⟨fun A => (A, fun _ => 7)⟩ (fun n => (n : ℚ)) 0 1
          ⟨⟨fun _ => 3, fun _ => 4, fun _ => 5⟩, fun _ => 0, fun _ => 0⟩).1.dev.buffer_a =
        ((⟨fun A => (A, fun _ => 7)⟩ : bm_execution.GefaKernel).run
          (⟨⟨fun _ => 3, fun _ => 4, fun _ => 5⟩, fun _ => 0, fun _ => 0⟩ :
            bm_execution.CalcState).host.A).1) :=
  C9_calculate_frame_effects 1 (fun n => (n : ℚ)) ⟨fun A => (A, fun _ => 7)⟩ (fun _ b _ => b)
    ⟨⟨fun _ => 3, fun _ => 4, fun _ => 5⟩, fun _ => 0, fun _ => 0⟩

theorem cpuCalculateLoop_no_mismatch {α : Type} (handler : transpose.DataHandlerType)
    (ops : transpose.DataOps α) :
    ∀ (costs : List transpose.RepCost) (r : ℕ) (d : α),
      (transpose.cpuCalculateLoop handler ops r costs d).1 ≠
        .error .blockSizeMismatch := by
  intro costs
  induction costs with
  | nil =>
    intro r d h
    simp [transpose.cpuCalculateLoop] at h
  | cons c cs ih =>
    intro r d
    cases handler with
    | unsupported =>
      intro h
      simp [transpose.cpuCalculateLoop] at h
    | diagonal =>
      rw [transpose.cpuCalculateLoop]
      cases hrest : (transpose.cpuCalculateLoop .diagonal ops (r + 1) cs
          (ops.exchangeData (ops.exchangeData d |> ops.computeDiagonal))).1 with
      | error e =>
        have he := ih (r + 1) (ops.exchangeData (ops.exchangeData d |> ops.computeDiagonal))
        rw [hrest] at he
        simpa [hrest] using he
      | ok p => simp [hrest]
    | pq =>
      rw [transpose.cpuCalculateLoop]
      cases hrest : (transpose.cpuCalculateLoop .pq ops (r + 1) cs
          (ops.exchangeData (ops.exchangeData d |> ops.computePq))).1 with
      | error e =>
        have he := ih (r + 1) (ops.exchangeData (ops.exchangeData d |> ops.computePq))
        rw [hrest] at he
        simpa [hrest] using he
      | ok p => simp [hrest]

/-- C5: if the configured block size differs from the compile-time fixed
block size, cpuCalculate fails with the block-size configuration error
before performing any repetition, leaving the data unchanged and the
operation trace empty; if the block size matches, this error is never
raised. -/
theorem C5_blockSize_mismatch_is_fatal_precheck {α : Type} (fixedBlockSize blockSize : ℕ)
    (handler : transpose.DataHandlerType) (ops : transpose.DataOps α)
    (costs : List transpose.RepCost) (payload : α) :
    (blockSize ≠ fixedBlockSize →
      transpose.cpuCalculate fixedBlockSize blockSize handler ops costs payload =
        (.error .blockSizeMismatch, payload, [])) ∧
    (blockSize = fixedBlockSize →
      (transpose.cpuCalculate fixedBlockSize blockSize handler ops costs payload).1 ≠
        .error .blockSizeMismatch) := by
  constructor
  · intro hne
    rw [transpose.cpuCalculate, if_pos hne]
  · intro heq
    rw [transpose.cpuCalculate, if_neg (by omega)]
    cases hloop : (transpose.cpuCalculateLoop handler ops 0 costs payload).1 with
    | error e =>
      have := cpuCalculateLoop_no_mismatch handler ops costs 0 payload
      rw [hloop] at this
      simp only [hloop, Except.map]
      intro h
      exact this (by injection h with h2; rw [h2])
    | ok p =>
      simp [hloop, Except.map]

/-- Witness for C5 at a mismatched (256 vs 512) configuration with
identity data operations over a ℕ payload. -/
theorem C5_blockSize_mismatch_is_fatal_precheck_witness :
    ((256 : ℕ) ≠ 512 →
      transpose.cpuCalculate 512 256 .diagonal ⟨id, id, id⟩ [⟨1, 1, 1⟩] (0 : ℕ) =
        (.error .blockSizeMismatch, 0, [])) ∧
    ((256 : ℕ) = 512 →
      (transpose.cpuCalculate 512 256 .diagonal ⟨id, id, id⟩ [⟨1, 1, 1⟩] (0 : ℕ)).1 ≠
        .error .blockSizeMismatch) :=
  C5_blockSize_mismatch_is_fatal_precheck 512 256 .diagonal ⟨id, id, id⟩ [⟨1, 1, 1⟩] 0

theorem cpuCalculateLoop_ok_timings {α : Type} (handler : transpose.DataHandlerType)
    (hsup : handler ≠ .unsupported) (ops : transpose.DataOps α) :
    ∀ (costs : List transpose.RepCost) (r : ℕ) (d : α),
      (transpose.cpuCalculateLoop handler ops r costs d).1 =
        .ok (costs.map (fun _ => (0 : ℚ)),
             costs.map (fun c => c.exchangeTime + c.calculationTime)) := by
  intro costs
  induction costs with
  | nil =>
    intro r d
    cases handler <;> rfl
  | cons c cs ih =>
    intro r d
    cases handler with
    | unsupported => exact absurd rfl hsup
    | diagonal =>
      rw [transpose.cpuCalculateLoop]
      rw [ih (r + 1) (ops.exchangeData (ops.exchangeData d |> ops.computeDiagonal))]
      rfl
    | pq =>
      rw [transpose.cpuCalculateLoop]
      rw [ih (r + 1) (ops.exchangeData (ops.exchangeData d |> ops.computePq))]
      rfl

/-- C4 (amended): in every repetition of the CPU calculate with a
supported handler, the calculation-time entry records the block exchange
together with the computation pass (exchangeTime + calculationTime), and
the transfer-time entry is always 0; the closing exchange is untimed. -/
theorem C4_exchange_timed_in_calculation_entry {α : Type} (fixedBlockSize : ℕ)
    (handler : transpose.DataHandlerType) (hsup : handler ≠ .unsupported)
    (ops : transpose.DataOps α) (costs : List transpose.RepCost) (payload : α) :
    (transpose.cpuCalculate fixedBlockSize fixedBlockSize handler ops costs payload).1 =
      .ok ⟨costs.map (fun _ => (0 : ℚ)),
           costs.map (fun c => c.exchangeTime + c.calculationTime)⟩ := by
  rw [transpose.cpuCalculate, if_neg (by omega)]
  simp only [cpuCalculateLoop_ok_timings handler hsup ops costs 0 payload, Except.map]

/-- Witness for C4 (amended) at one repetition of unit costs with the
diagonal handler. -/
theorem C4_exchange_timed_in_calculation_entry_witness :
    (transpose.cpuCalculate 512 512 .diagonal ⟨id, id, id⟩ [⟨1, 1, 1⟩] (0 : ℕ)).1 =
      .ok ⟨([⟨1, 1, 1⟩] : List transpose.RepCost).map (fun _ => (0 : ℚ)),
           ([⟨1, 1, 1⟩] : List transpose.RepCost).map
             (fun c => c.exchangeTime + c.calculationTime)⟩ :=
  C4_exchange_timed_in_calculation_entry 512 .diagonal (by simp) ⟨id, id, id⟩ [⟨1, 1, 1⟩] 0

/-- C4 counterexample: with one repetition whose exchange phases take 1
time unit each and whose computation takes 1 time unit, the claim as
stated would require the transfer-time entry 1 + 1 and the
calculation-time entry 1; the code instead records transfer 0 and
calculation 1 + 1, because the first exchange sits inside the timed
calculation window and the transferTime variable is never updated. -/
theorem C4_counterexample_exchange_in_calc_window :
    ¬ ((transpose.cpuCalculate 512 512 .diagonal ⟨id, id, id⟩ [⟨1, 1, 1⟩] (0 : ℕ)).1 =
        .ok ⟨[1 + 1], [1]⟩) := by
  rw [C4_exchange_timed_in_calculation_entry 512 .diagonal (by simp) ⟨id, id, id⟩
    [⟨1, 1, 1⟩] 0]
  intro h
  injection h with h2
  have h3 : ([(0 : ℚ)], [(2 : ℚ)]) = ((⟨[1 + 1], [1]⟩ : transpose.TransposeExecutionTimings).transferTimings, (⟨[1 + 1], [1]⟩ : transpose.TransposeExecutionTimings).calculationTimings) := by
    rw [← h2]
    norm_num
  norm_num at h3

theorem nodeProgram_succ (m : ℕ) :
    transpose.nodeProgram (m + 1) =
      transpose.nodeProgram m ++ transpose.repetitionEvents m := by
  rw [transpose.nodeProgram, transpose.nodeProgram, List.range_succ m, List.flatMap_append]
  simp

theorem nodeProgram_length (reps : ℕ) :
    (transpose.nodeProgram reps).length = 4 * reps := by
  induction reps with
  | zero => rfl
  | succ m ih =>
    rw [nodeProgram_succ, List.length_append, ih]
    rfl

theorem nodeProgram_getD (reps r q : ℕ) (hr : r < reps) (hq : q < 4)
    (d : transpose.Event) :
    (transpose.nodeProgram reps).getD (4 * r + q) d =
      (transpose.repetitionEvents r).getD q d := by
  induction reps with
  | zero => omega
  | succ m ih =>
    rw [nodeProgram_succ]
    rcases Nat.lt_or_ge r m with hrm | hrm
    · rw [List.getD_append _ _ _ _ (by rw [nodeProgram_length]; omega)]
      exact ih hrm
    · have hrem : r = m := by omega
      subst hrem
      rw [List.getD_append_right _ _ _ _ (by rw [nodeProgram_length]; omega)]
      rw [nodeProgram_length]
      have hsub : 4 * r + q - 4 * r = q := by omega
      rw [hsub]

theorem reachable_barrier_invariant (N reps : ℕ) (pos : Fin N → ℕ)
    (hreach : transpose.Reachable N reps pos) :
    ∀ (k : Fin N) (r : ℕ), 4 * r < pos k → ∀ m : Fin N, 4 * r ≤ pos m := by
  induction hreach with
  | refl =>
    intro k r h m
    simp only [] at h
    omega
  | @tail b c hsteps hstep ih =>
    cases hstep with
    | step n hlt hbar =>
      intro k r hk m
      have hmono : ∀ j : Fin N, b j ≤ Function.update b n (b n + 1) j := by
        intro j
        rcases eq_or_ne j n with hj | hj
        · subst hj; rw [Function.update_same]; omega
        · rw [Function.update_noteq hj]
      refine le_trans ?_ (hmono m)
      rcases eq_or_ne k n with hkn | hkn
      · subst hkn
        rw [Function.update_same] at hk
        rcases Nat.lt_or_ge (4 * r) (b k) with hlt2 | hge2
        · exact ih k r hlt2 m
        · have heq : 4 * r = b k := by omega
          have hrrep : r < reps := by
            rw [nodeProgram_length reps] at hlt
            omega
          have hbarrier : (transpose.nodeProgram reps).getD (b k) (.compute 0) =
              .barrier r := by
            rw [← heq]
            have h40 : 4 * r + 0 = 4 * r := by omega
            rw [← h40, nodeProgram_getD reps r 0 hrrep (by omega)]
            rfl
          exact hbar r hbarrier m
      · rw [Function.update_noteq hkn] at hk
        exact ih k r hk m

/-- C7: in every reachable state of the N-node system, whenever the next
operation of some node is a block exchange of repetition r (so that the
exchange is about to be issued), every node has already arrived at the
barrier of repetition r: no repetition begins exchanging data before all
nodes have synchronized. -/
theorem C7_barrier_completes_before_traffic (N reps : ℕ) (pos : Fin N → ℕ)
    (hreach : transpose.Reachable N reps pos) (n : Fin N) (r p : ℕ)
    (hev : (transpose.nodeProgram reps).getD (pos n) (transpose.Event.compute 0) =
      transpose.Event.exchange r p) :
    ∀ m : Fin N, 4 * r ≤ pos m := by
  have hlen : pos n < (transpose.nodeProgram reps).length := by
    by_contra hcon
    rw [List.getD_eq_default _ _ (le_of_not_lt hcon)] at hev
    exact transpose.Event.noConfusion hev
  rw [nodeProgram_length] at hlen
  have hq4 : pos n % 4 < 4 := Nat.mod_lt _ (by omega)
  have hdecomp : pos n = 4 * (pos n / 4) + pos n % 4 := (Nat.div_add_mod (pos n) 4).symm
  have hr0 : pos n / 4 < reps := by omega
  rw [hdecomp, nodeProgram_getD reps (pos n / 4) (pos n % 4) hr0 hq4] at hev
  have hq : pos n % 4 = 0 ∨ pos n % 4 = 1 ∨ pos n % 4 = 2 ∨ pos n % 4 = 3 := by omega
  have hble : 4 * r < pos n := by
    rcases hq with h0 | h1 | h2 | h3
    · rw [h0] at hev
      exact absurd hev (by simp [transpose.repetitionEvents])
    · rw [h1] at hev
      simp only [transpose.repetitionEvents, List.getD_cons_succ, List.getD_cons_zero,
        transpose.Event.exchange.injEq] at hev
      omega
    · rw [h2] at hev
      exact absurd hev (by simp [transpose.repetitionEvents])
    · rw [h3] at hev
      simp only [transpose.repetitionEvents, List.getD_cons_succ, List.getD_cons_zero,
        transpose.Event.exchange.injEq] at hev
      omega
  exact reachable_barrier_invariant N reps pos hreach n r hble

/-- Witness for C7: one node, one repetition, in the reachable state where
the node has just completed the barrier of repetition 0; its next
operation is the exchange of repetition 0 and every node has arrived at
that barrier. -/
theorem C7_barrier_completes_before_traffic_witness :
    4 * 0 ≤
      Function.update (fun _ : Fin 1 => (0 : ℕ)) 0 ((fun _ : Fin 1 => (0 : ℕ)) 0 + 1) 0 := by
  have hstep : transpose.NodeStep 1 1 (fun _ : Fin 1 => (0 : ℕ))
      (Function.update (fun _ : Fin 1 => (0 : ℕ)) 0 ((fun _ : Fin 1 => (0 : ℕ)) 0 + 1)) := by
    refine transpose.NodeStep.step (fun _ => 0) 0 (by decide) ?_
    intro r h m
    have hb : (transpose.nodeProgram 1).getD ((fun _ : Fin 1 => (0 : ℕ)) 0)
        (transpose.Event.compute 0) = transpose.Event.barrier 0 := by decide
    rw [hb] at h
    injection h with hr
    subst hr
    exact Nat.zero_le _
  have hreach : transpose.Reachable 1 1
      (Function.update (fun _ : Fin 1 => (0 : ℕ)) 0 ((fun _ : Fin 1 => (0 : ℕ)) 0 + 1)) :=
    Relation.ReflTransGen.tail Relation.ReflTransGen.refl hstep
  exact C7_barrier_completes_before_traffic 1 1 _ hreach 0 0 0 (by decide) 0

theorem cpuCalculateLoop_trace {α : Type} (handler : transpose.DataHandlerType)
    (hsup : handler ≠ .unsupported) (ops : transpose.DataOps α) :
    ∀ (costs : List transpose.RepCost) (r : ℕ) (d : α),
      (transpose.cpuCalculateLoop handler ops r costs d).2.2 =
        (List.range' r costs.length).flatMap transpose.repetitionEvents := by
  intro costs
  induction costs with
  | nil =>
    intro r d
    cases handler <;> rfl
  | cons c cs ih =>
    intro r d
    cases handler with
    | unsupported => exact absurd rfl hsup
    | diagonal =>
      rw [transpose.cpuCalculateLoop]
      simp only [List.length_cons, List.range'_succ, List.flatMap_cons]
      rw [ih (r + 1) (ops.exchangeData (ops.exchangeData d |> ops.computeDiagonal))]
      rfl
    | pq =>
      rw [transpose.cpuCalculateLoop]
      simp only [List.length_cons, List.range'_succ, List.flatMap_cons]
      rw [ih (r + 1) (ops.exchangeData (ops.exchangeData d |> ops.computePq))]
      rfl

theorem cpuCalculateLoop_trace_is_nodeProgram {α : Type}
    (handler : transpose.DataHandlerType) (hsup : handler ≠ .unsupported)
    (ops : transpose.DataOps α) (costs : List transpose.RepCost) (d : α) :
    (transpose.cpuCalculateLoop handler ops 0 costs d).2.2 =
      transpose.nodeProgram costs.length := by
  rw [cpuCalculateLoop_trace handler hsup ops costs 0 d, transpose.nodeProgram,
    List.range_eq_range']

theorem luStep_eq_gefaStep (s : ℕ) (a : ℕ → ℕ → ℚ) :
    linpack.luStep s a = linpack.gefaStep s a := by
  funext j i
  simp only [linpack.luStep, linpack.gefaStep, linpack.multColumn, linpack.pivotRow]
  split_ifs <;> first | rfl | omega

theorem luAux_eq_gefaAux (a : ℕ → ℕ → ℚ) : ∀ k, linpack.luAux a k = linpack.gefaAux a k := by
  intro k
  induction k with
  | zero => rfl
  | succ m ih =>
    show linpack.luStep m (linpack.luAux a m) = linpack.gefaStep m (linpack.gefaAux a m)
    rw [ih, luStep_eq_gefaStep]

theorem gefaAux_col_stable (a : ℕ → ℕ → ℚ) (k : ℕ) :
    ∀ t, k + 1 ≤ t → ∀ j, linpack.gefaAux a t j k = linpack.gefaAux a (k + 1) j k := by
  intro t
  induction t with
  | zero => omega
  | succ m ih =>
    intro h j
    rcases Nat.eq_or_lt_of_le h with heq | hlt
    · rw [heq]
    · have hkm : k + 1 ≤ m := by omega
      show linpack.gefaStep m (linpack.gefaAux a m) j k = _
      rw [linpack.gefaStep]
      rw [if_neg (by omega), if_neg (by omega)]
      exact ih hkm j

theorem elim_gefa_agree (a : ℕ → ℕ → ℚ) :
    ∀ k, (∀ t < k, linpack.gefaAux a t t t ≠ 0) →
      ∀ j i, linpack.elimAux a k j i =
        if i < k ∧ i < j then 0 else linpack.gefaAux a k j i := by
  intro k
  induction k with
  | zero =>
    intro _ j i
    rw [if_neg (by omega)]
    rfl
  | succ k ih =>
    intro hpiv j i
    have hpiv2 : ∀ t < k, linpack.gefaAux a t t t ≠ 0 := fun t ht => hpiv t (by omega)
    have ihk := ih hpiv2
    have hEjk : linpack.elimAux a k j k = linpack.gefaAux a k j k := by
      rw [ihk j k, if_neg (by omega)]
    have hEkk : linpack.elimAux a k k k = linpack.gefaAux a k k k := by
      rw [ihk k k, if_neg (by omega)]
    show linpack.elimStep k (linpack.elimAux a k) j i =
      if i < k + 1 ∧ i < j then 0 else linpack.gefaStep k (linpack.gefaAux a k) j i
    rw [linpack.elimStep, linpack.gefaStep]
    by_cases hj : k < j
    · rw [if_pos hj]
      by_cases hik : i < k
      · have hEki : linpack.elimAux a k k i = 0 := by
          rw [ihk k i, if_pos ⟨hik, hik⟩]
        have hEji : linpack.elimAux a k j i = 0 := by
          rw [ihk j i, if_pos ⟨hik, by omega⟩]
        rw [hEki, mul_zero, sub_zero, hEji, if_pos (⟨by omega, by omega⟩ : i < k + 1 ∧ i < j)]
      · by_cases hieq : i = k
        · rw [hieq]
          have hne : linpack.gefaAux a k k k ≠ 0 := hpiv k (by omega)
          rw [if_pos (⟨by omega, hj⟩ : k < k + 1 ∧ k < j)]
          rw [hEjk, hEkk, div_mul_cancel₀ _ hne, sub_self]
        · have hki : k < i := by omega
          have hEki : linpack.elimAux a k k i = linpack.gefaAux a k k i := by
            rw [ihk k i, if_neg (by omega)]
          have hEji : linpack.elimAux a k j i = linpack.gefaAux a k j i := by
            rw [ihk j i, if_neg (by omega)]
          rw [if_neg (by omega : ¬(i < k + 1 ∧ i < j)),
            if_neg (by omega : ¬(k < j ∧ i = k)),
            if_pos (⟨hj, hki⟩ : k < j ∧ k < i), hEjk, hEkk, hEki, hEji]
    · rw [if_neg hj]
      by_cases hfinal : i < k + 1 ∧ i < j
      · rw [if_pos hfinal]
        rw [ihk j i, if_pos ⟨by omega, hfinal.2⟩]
      · rw [if_neg hfinal]
        rw [if_neg (by omega : ¬(k < j ∧ i = k)), if_neg (by omega : ¬(k < j ∧ k < i))]
        rw [ihk j i]
        by_cases hold : i < k ∧ i < j
        · exact absurd ⟨by omega, hold.2⟩ hfinal
        · rw [if_neg hold]

theorem sdd_pivot_ne_zero {k n : ℕ} {e : ℕ → ℕ → ℚ} (h : linpack.SDDfrom k n e)
    (hk : k < n) : e k k ≠ 0 := by
  have hmem : k ∈ Finset.Ico k n := Finset.mem_Ico.mpr ⟨le_refl k, hk⟩
  have hlt := h k hmem
  have hnonneg : 0 ≤ ∑ i ∈ (Finset.Ico k n).erase k, |e k i| :=
    Finset.sum_nonneg (fun i _ => abs_nonneg _)
  intro h0
  rw [h0, abs_zero] at hlt
  linarith

theorem sdd_elimStep {k n : ℕ} (hk : k < n) (e : ℕ → ℕ → ℚ)
    (h : linpack.SDDfrom k n e) :
    linpack.SDDfrom (k + 1) n (linpack.elimStep k e) := by
  intro r hr
  rw [Finset.mem_Ico] at hr
  have hkr : k < r := by omega
  have hrn : r < n := hr.2
  have hpne : e k k ≠ 0 := sdd_pivot_ne_zero h hk
  have hrow : ∀ i, linpack.elimStep k e r i = e r i - e r k / e k k * e k i := by
    intro i
    rw [linpack.elimStep, if_pos hkr]
  have hrmem : r ∈ Finset.Ico (k + 1) n := Finset.mem_Ico.mpr ⟨by omega, hrn⟩
  -- split the dominance sums of rows r and k at column k resp. column r
  have hsplitr : (Finset.Ico k n).erase r = insert k ((Finset.Ico (k + 1) n).erase r) := by
    ext x
    simp only [Finset.mem_erase, Finset.mem_insert, Finset.mem_Ico]
    omega
  have hknotmem : k ∉ (Finset.Ico (k + 1) n).erase r := by
    simp only [Finset.mem_erase, Finset.mem_Ico]
    omega
  have hsplitk : (Finset.Ico k n).erase k = Finset.Ico (k + 1) n := by
    ext x
    simp only [Finset.mem_erase, Finset.mem_Ico]
    omega
  have hSr := h r (Finset.mem_Ico.mpr ⟨by omega, hrn⟩)
  have hSk := h k (Finset.mem_Ico.mpr ⟨le_refl k, hk⟩)
  rw [hsplitr, Finset.sum_insert hknotmem] at hSr
  rw [hsplitk, ← Finset.insert_erase hrmem, Finset.sum_insert (Finset.not_mem_erase r _)]
    at hSk
  -- triangle inequality on the updated row
  have htri : (∑ i ∈ (Finset.Ico (k + 1) n).erase r, |linpack.elimStep k e r i|) ≤
      (∑ i ∈ (Finset.Ico (k + 1) n).erase r, |e r i|) +
        |e r k / e k k| * (∑ i ∈ (Finset.Ico (k + 1) n).erase r, |e k i|) := by
    rw [Finset.mul_sum, ← Finset.sum_add_distrib]
    refine Finset.sum_le_sum (fun i _ => ?_)
    rw [hrow i]
    calc |e r i - e r k / e k k * e k i|
        ≤ |e r i| + |e r k / e k k * e k i| := by
          rw [sub_eq_add_neg]
          exact le_trans (abs_add _ _) (by rw [abs_neg])
      _ = |e r i| + |e r k / e k k| * |e k i| := by rw [abs_mul]
  -- the multiplier column collapses: |m| * |e k k| = |e r k|
  have hmkk : |e r k / e k k| * |e k k| = |e r k| := by
    rw [abs_div]
    exact div_mul_cancel₀ _ (abs_ne_zero.mpr hpne)
  have hmB : |e r k / e k k| * (∑ i ∈ (Finset.Ico (k + 1) n).erase r, |e k i|) ≤
      |e r k| - |e r k / e k k| * |e k r| := by
    have hBle : (∑ i ∈ (Finset.Ico (k + 1) n).erase r, |e k i|) ≤ |e k k| - |e k r| := by
      linarith
    calc |e r k / e k k| * (∑ i ∈ (Finset.Ico (k + 1) n).erase r, |e k i|)
        ≤ |e r k / e k k| * (|e k k| - |e k r|) :=
          mul_le_mul_of_nonneg_left hBle (abs_nonneg _)
      _ = |e r k / e k k| * |e k k| - |e r k / e k k| * |e k r| := by ring
      _ = |e r k| - |e r k / e k k| * |e k r| := by rw [hmkk]
  -- the updated diagonal keeps enough mass
  have hdiag : |e r r| - |e r k / e k k| * |e k r| ≤ |linpack.elimStep k e r r| := by
    rw [hrow r, ← abs_mul]
    exact abs_sub_abs_le_abs_sub _ _
  linarith

theorem sdd_elimAux (n : ℕ) (a : ℕ → ℕ → ℚ) (hdom : linpack.StrictDiagDominant n a) :
    ∀ k, k ≤ n → linpack.SDDfrom k n (linpack.elimAux a k) := by
  intro k
  induction k with
  | zero => intro _; exact hdom
  | succ k ih =>
    intro hk
    have hstep := sdd_elimStep (by omega : k < n) (linpack.elimAux a k) (ih (by omega))
    exact hstep

theorem elim_pivots_ne_zero (n : ℕ) (a : ℕ → ℕ → ℚ)
    (hdom : linpack.StrictDiagDominant n a) :
    ∀ k < n, linpack.elimAux a k k k ≠ 0 := by
  intro k hk
  exact sdd_pivot_ne_zero (sdd_elimAux n a hdom k (by omega)) hk

theorem gefa_pivots_ne_zero (n : ℕ) (a : ℕ → ℕ → ℚ)
    (hdom : linpack.StrictDiagDominant n a) :
    ∀ k < n, linpack.gefaAux a k k k ≠ 0 := by
  intro k
  induction k using Nat.strong_induction_on with
  | _ k ih =>
    intro hk
    have hE := elim_pivots_ne_zero n a hdom k hk
    have hagree := elim_gefa_agree a k (fun t ht => ih t ht (by omega)) k k
    rw [if_neg (by omega)] at hagree
    rw [← hagree]
    exact hE

theorem solves_elimStep_iff (n k : ℕ) (a : ℕ → ℕ → ℚ) (b x : ℕ → ℚ) :
    linpack.Solves n (linpack.elimStep k a) (linpack.elimVecStep a k b) x ↔
      linpack.Solves n a b x := by
  have hexp : ∀ r, k < r → (∑ i ∈ Finset.range n, linpack.elimStep k a r i * x i) =
      (∑ i ∈ Finset.range n, a r i * x i) -
        a r k / a k k * (∑ i ∈ Finset.range n, a k i * x i) := by
    intro r hkr
    rw [Finset.mul_sum, ← Finset.sum_sub_distrib]
    refine Finset.sum_congr rfl (fun i _ => ?_)
    rw [linpack.elimStep, if_pos hkr]
    ring
  have hrowk : ∀ i, linpack.elimStep k a k i = a k i := by
    intro i
    rw [linpack.elimStep, if_neg (by omega)]
  have hveck : linpack.elimVecStep a k b k = b k := by
    rw [linpack.elimVecStep, if_neg (by omega)]
  have hvecr : ∀ r, k < r → linpack.elimVecStep a k b r = b r - a r k / a k k * b k := by
    intro r hr
    rw [linpack.elimVecStep, if_pos hr]
  constructor
  · intro h r hr
    by_cases hkr : k < r
    · have hk : (∑ i ∈ Finset.range n, a k i * x i) = b k := by
        have hkn := h k (by omega)
        rw [hveck] at hkn
        rw [← hkn]
        exact Finset.sum_congr rfl (fun i _ => by rw [hrowk i])
      have hr2 := h r hr
      rw [hexp r hkr, hvecr r hkr, hk] at hr2
      linarith
    · have hr2 := h r hr
      have hrow : ∀ i, linpack.elimStep k a r i = a r i := by
        intro i
        rw [linpack.elimStep, if_neg hkr]
      have hvec : linpack.elimVecStep a k b r = b r := by
        rw [linpack.elimVecStep, if_neg hkr]
      rw [hvec] at hr2
      rw [← hr2]
      exact (Finset.sum_congr rfl (fun i _ => by rw [hrow i])).symm
  · intro h r hr
    by_cases hkr : k < r
    · rw [hexp r hkr, hvecr r hkr, h r hr, h k (by omega)]
    · have hrow : ∀ i, linpack.elimStep k a r i = a r i := by
        intro i
        rw [linpack.elimStep, if_neg hkr]
      have hvec : linpack.elimVecStep a k b r = b r := by
        rw [linpack.elimVecStep, if_neg hkr]
      rw [hvec, ← h r hr]
      exact Finset.sum_congr rfl (fun i _ => by rw [hrow i])

theorem solves_elimAux_iff (n : ℕ) (a : ℕ → ℕ → ℚ) (b x : ℕ → ℚ) :
    ∀ k, linpack.Solves n (linpack.elimAux a k) (linpack.elimVecAux a k b) x ↔
      linpack.Solves n a b x := by
  intro k
  induction k with
  | zero => exact Iff.rfl
  | succ k ih =>
    have hstep := solves_elimStep_iff n k (linpack.elimAux a k) (linpack.elimVecAux a k b) x
    exact hstep.trans ih

theorem geslForward_eq_elimVec (n : ℕ) (a : ℕ → ℕ → ℚ)
    (hpiv : ∀ t < n, linpack.gefaAux a t t t ≠ 0) (b : ℕ → ℚ) :
    ∀ k, k ≤ n →
      linpack.geslForwardAux (linpack.gefa_ref_nopvt n a) k b =
        linpack.elimVecAux a k b := by
  intro k
  induction k with
  | zero => intro _; rfl
  | succ k ih =>
    intro hk
    show linpack.geslForwardStep (linpack.gefa_ref_nopvt n a) k
        (linpack.geslForwardAux (linpack.gefa_ref_nopvt n a) k b) =
      linpack.elimVecStep (linpack.elimAux a k) k (linpack.elimVecAux a k b)
    rw [ih (by omega)]
    funext i
    rw [linpack.geslForwardStep, linpack.elimVecStep]
    by_cases hki : k < i
    · rw [if_pos hki, if_pos hki]
      have hstab : linpack.gefa_ref_nopvt n a i k = linpack.gefaAux a (k + 1) i k := by
        rw [linpack.gefa_ref_nopvt]
        exact gefaAux_col_stable a k n (by omega) i
      have hstep : linpack.gefaAux a (k + 1) i k =
          -(linpack.gefaAux a k i k / linpack.gefaAux a k k k) := by
        show linpack.gefaStep k (linpack.gefaAux a k) i k = _
        rw [linpack.gefaStep, if_pos ⟨hki, rfl⟩]
      have hEik : linpack.elimAux a k i k = linpack.gefaAux a k i k := by
        rw [elim_gefa_agree a k (fun t ht => hpiv t (by omega)) i k, if_neg (by omega)]
      have hEkk : linpack.elimAux a k k k = linpack.gefaAux a k k k := by
        rw [elim_gefa_agree a k (fun t ht => hpiv t (by omega)) k k, if_neg (by omega)]
      rw [hstab, hstep, ← hEik, ← hEkk]
      ring
    · rw [if_neg hki, if_neg hki]

theorem geslBackAux_untouched (g : ℕ → ℕ → ℚ) :
    ∀ (m : ℕ) (b : ℕ → ℚ) (i : ℕ), m ≤ i → linpack.geslBackAux g m b i = b i := by
  intro m
  induction m with
  | zero => intro b i _; rfl
  | succ m ih =>
    intro b i hi
    show linpack.geslBackAux g m (linpack.geslBackStep g m b) i = b i
    rw [ih _ i (by omega)]
    rw [linpack.geslBackStep, if_neg (by omega), if_neg (by omega)]

theorem geslBackAux_solves (g : ℕ → ℕ → ℚ) :
    ∀ (m : ℕ), (∀ t < m, g t t ≠ 0) → ∀ (b : ℕ → ℚ) (r : ℕ), r < m →
      g r r * linpack.geslBackAux g m b r +
        (∑ t ∈ Finset.Ico (r + 1) m, g r t * linpack.geslBackAux g m b t) = b r := by
  intro m
  induction m with
  | zero => intro _ b r hr; omega
  | succ m ih =>
    intro hpiv b r hr
    show g r r * linpack.geslBackAux g m (linpack.geslBackStep g m b) r +
        (∑ t ∈ Finset.Ico (r + 1) (m + 1),
          g r t * linpack.geslBackAux g m (linpack.geslBackStep g m b) t) = b r
    have hb1m : linpack.geslBackStep g m b m = b m / g m m := by
      rw [linpack.geslBackStep, if_pos rfl]
    by_cases hrm : r = m
    · subst hrm
      rw [Finset.Ico_self, Finset.sum_empty, add_zero]
      rw [geslBackAux_untouched g r _ r (le_refl r), hb1m, mul_comm,
        div_mul_cancel₀ _ (hpiv r (by omega))]
    · have hrm2 : r < m := by omega
      have ihr := ih (fun t ht => hpiv t (by omega)) (linpack.geslBackStep g m b) r hrm2
      have hb1r : linpack.geslBackStep g m b r = b r - b m / g m m * g r m := by
        rw [linpack.geslBackStep, if_neg (by omega), if_pos hrm2]
      rw [Finset.sum_Ico_succ_top (by omega : r + 1 ≤ m)]
      have hresm : linpack.geslBackAux g m (linpack.geslBackStep g m b) m =
          b m / g m m := by
        rw [geslBackAux_untouched g m _ m (le_refl m), hb1m]
      rw [hresm]
      rw [hb1r] at ihr
      have hcomm : g r m * (b m / g m m) = b m / g m m * g r m := mul_comm _ _
      linarith [ihr]

theorem gefa_diag_eq (n : ℕ) (a : ℕ → ℕ → ℚ) (t : ℕ) (ht : t < n) :
    linpack.gefa_ref_nopvt n a t t = linpack.gefaAux a t t t := by
  rw [linpack.gefa_ref_nopvt, gefaAux_col_stable a t n (by omega) t]
  show linpack.gefaStep t (linpack.gefaAux a t) t t = _
  rw [linpack.gefaStep, if_neg (by omega), if_neg (by omega)]

theorem gesl_solves_eliminated (n : ℕ) (a : ℕ → ℕ → ℚ)
    (hdom : linpack.StrictDiagDominant n a) (b : ℕ → ℚ) :
    linpack.Solves n (linpack.elimAux a n) (linpack.elimVecAux a n b)
      (linpack.gesl_ref_nopvt (linpack.gefa_ref_nopvt n a) n b) := by
  intro r hr
  have hpivG := gefa_pivots_ne_zero n a hdom
  have hagree := elim_gefa_agree a n (fun t ht => hpivG t ht)
  have hgdiag : ∀ t < n, linpack.gefa_ref_nopvt n a t t ≠ 0 := by
    intro t ht
    rw [gefa_diag_eq n a t ht]
    exact hpivG t ht
  have hy := geslForward_eq_elimVec n a hpivG b n (le_refl n)
  have hback := geslBackAux_solves (linpack.gefa_ref_nopvt n a) n
    (fun t ht => hgdiag t ht)
    (linpack.geslForwardAux (linpack.gefa_ref_nopvt n a) n b) r hr
  have hsplit : (∑ i ∈ Finset.range n, linpack.elimAux a n r i *
      linpack.gesl_ref_nopvt (linpack.gefa_ref_nopvt n a) n b i) =
      (∑ i ∈ Finset.Ico r n, linpack.gefa_ref_nopvt n a r i *
        linpack.gesl_ref_nopvt (linpack.gefa_ref_nopvt n a) n b i) := by
    rw [Finset.range_eq_Ico,
      ← Finset.sum_Ico_consecutive _ (Nat.zero_le r) (le_of_lt hr)]
    have h1 : (∑ i ∈ Finset.Ico 0 r, linpack.elimAux a n r i *
        linpack.gesl_ref_nopvt (linpack.gefa_ref_nopvt n a) n b i) = 0 := by
      refine Finset.sum_eq_zero (fun i hi => ?_)
      rw [Finset.mem_Ico] at hi
      rw [hagree r i, if_pos ⟨by omega, hi.2⟩, zero_mul]
    rw [h1, zero_add]
    refine Finset.sum_congr rfl (fun i hi => ?_)
    rw [Finset.mem_Ico] at hi
    rw [hagree r i, if_neg (by omega)]
    rfl
  rw [hsplit, Finset.sum_eq_sum_Ico_succ_bot hr, ← hy]
  show linpack.gefa_ref_nopvt n a r r *
      linpack.geslBackAux (linpack.gefa_ref_nopvt n a) n
        (linpack.geslForwardAux (linpack.gefa_ref_nopvt n a) n b) r +
      (∑ i ∈ Finset.Ico (r + 1) n, linpack.gefa_ref_nopvt n a r i *
        linpack.geslBackAux (linpack.gefa_ref_nopvt n a) n
          (linpack.geslForwardAux (linpack.gefa_ref_nopvt n a) n b) i) =
    linpack.geslForwardAux (linpack.gefa_ref_nopvt n a) n b r
  exact hback

theorem foldl_max_abs_zero (g : ℕ → ℚ) (l : List ℕ) (h : ∀ r ∈ l, g r = 0) :
    l.foldl (fun maxError r => max |g r| maxError) 0 = 0 := by
  induction l with
  | nil => rfl
  | cons x l ih =>
    rw [List.foldl_cons, h x (List.mem_cons_self x l)]
    simp only [abs_zero, max_self]
    exact ih (fun r hr => h r (List.mem_cons_of_mem x hr))

/-- C1: for a single-block configuration on a strictly diagonally dominant
input, the LU role kernel factorization (modelled from the spec) is equal,
entry for entry, to the sequential non-pivoting reference factorization
gefa_ref_nopvt, and the solution obtained by gesl_ref_nopvt back
substitution from that factorization solves the original system exactly,
so the harness validation residual is 0 (a pass within floating-point
epsilon). -/
theorem C1_lu_matches_reference_and_validates (n : ℕ) (a : ℕ → ℕ → ℚ) (b : ℕ → ℚ)
    (hdom : linpack.StrictDiagDominant n a) :
    linpack.luRole n a = linpack.gefa_ref_nopvt n a ∧
    linpack.residualMax n a b
      (linpack.gesl_ref_nopvt (linpack.gefa_ref_nopvt n a) n b) = 0 := by
  constructor
  · exact luAux_eq_gefaAux a n
  · have hsolE := gesl_solves_eliminated n a hdom b
    have hsol := (solves_elimAux_iff n a b
      (linpack.gesl_ref_nopvt (linpack.gefa_ref_nopvt n a) n b) n).mp hsolE
    rw [linpack.residualMax]
    refine foldl_max_abs_zero
      (fun r => (∑ i ∈ Finset.range n, a r i *
        linpack.gesl_ref_nopvt (linpack.gefa_ref_nopvt n a) n b i) - b r)
      (List.range n) (fun r hrl => ?_)
    rw [List.mem_range] at hrl
    show (∑ i ∈ Finset.range n, a r i *
      linpack.gesl_ref_nopvt (linpack.gefa_ref_nopvt n a) n b i) - b r = 0
    rw [hsol r hrl, sub_self]

/-- Witness for C1 at the strictly diagonally dominant 1 x 1 block with
entry 2 and right-hand side 3. -/
theorem C1_lu_matches_reference_and_validates_witness :
    linpack.StrictDiagDominant 1 (fun _ _ => 2) ∧
    (linpack.luRole 1 (fun _ _ => 2) = linpack.gefa_ref_nopvt 1 (fun _ _ => 2) ∧
      linpack.residualMax 1 (fun _ _ => 2) (fun _ => 3)
        (linpack.gesl_ref_nopvt (linpack.gefa_ref_nopvt 1 (fun _ _ => 2)) 1
          (fun _ => 3)) = 0) := by
  have hdom : linpack.StrictDiagDominant 1 (fun _ _ => 2) := by
    intro r hr
    rw [Finset.mem_Ico] at hr
    have hr0 : r = 0 := by omega
    subst hr0
    have hempty : (Finset.Ico 0 1).erase 0 = ∅ := rfl
    rw [hempty, Finset.sum_empty]
    exact abs_pos.mpr (by decide)
  exact ⟨hdom, C1_lu_matches_reference_and_validates 1 (fun _ _ => 2) (fun _ => 3) hdom⟩
